import Mathlib

/-!
Verification of the line-editing and search core of `live_search.py`.

The Python source is shallowly embedded: text is `List Char`, indices are
`Nat`, each Python while-loop becomes a recursive function (index-walking
loops take an explicit fuel argument equal to the number of remaining
iterations so that every definition is structurally recursive and
kernel-evaluable).  Python's `int` indices never go negative in the loops
modelled here; where the source tests `i >= 0` after a downward walk, the
embedding returns an `Option Nat` (`none` standing for "fell off the left
end", i.e. the Python value `-1`).
-/

/-- ASCII lowercasing, as Python's `str.lower` / `re.IGNORECASE` behave on
the ASCII range (all corpus and pattern text in the claims is ASCII). -/
def pyLower (c : Char) : Char :=
  if 65 ≤ c.toNat ∧ c.toNat ≤ 90 then Char.ofNat (c.toNat + 32) else c

/-- Python `c in ' \t'`: the horizontal-whitespace test used by the
word-boundary loops of `live_search.py`. -/
def isHWs (c : Char) : Bool := c = ' ' ∨ c = '\t'

/-- Downward scanning loop `while i >= 0 and p(text[i]): i -= 1`, starting
at index `i`.  Returns `none` when the loop ran past the left end
(Python's `i == -1`), otherwise `some` of the final index. -/
def scanBack (p : Char → Bool) (text : List Char) : Nat → Option Nat
  | 0 => if p (text.getD 0 ' ') then none else some 0
  | i + 1 => if p (text.getD (i + 1) ' ') then scanBack p text i else some (i + 1)

/-- Upward scanning loop `while i < len(text) and p(text[i]): i += 1`,
with explicit fuel (the wrapper `scanFwd` passes `text.length - i`). -/
def scanFwdAux (p : Char → Bool) (text : List Char) : Nat → Nat → Nat
  | 0, i => i
  | fuel + 1, i =>
    if i < text.length then
      if p (text.getD i ' ') then scanFwdAux p text fuel (i + 1) else i
    else i

/-- Upward scanning loop `while i < len(text) and p(text[i]): i += 1`. -/
def scanFwd (p : Char → Bool) (text : List Char) (i : Nat) : Nat :=
  scanFwdAux p text (text.length - i) i

/-- Main loop of `find_word_boundary_backward` (`live_search.py:123-145`):
walk left from index `i` while the pair (`text[i-1]`, `text[i]`) crosses no
smart boundary; on the snake_case boundary with the underscore to the left,
the underscore is consumed (`i -= 1` before the `break`). -/
def fwbLoop (text : List Char) : Nat → Nat
  | 0 => 0
  | i + 1 =>
    let prev := text.getD i ' '
    let curr := text.getD (i + 1) ' '
    if isHWs prev then i + 1
    else if prev = '_' ∨ curr = '_' then (if prev = '_' then i else i + 1)
    else if prev.isLower ∧ curr.isUpper then i + 1
    else if prev.isDigit ≠ curr.isDigit then i + 1
    else fwbLoop text i

/-- `find_word_boundary_backward(text, pos)` from `live_search.py:104-147`. -/
def find_word_boundary_backward (text : List Char) (pos : Nat) : Nat :=
  if pos = 0 then 0
  else
    match scanBack isHWs text (pos - 1) with
    | none => 0
    | some i => fwbLoop text i

/-- The smart word delete wired to Option/Cmd+Backspace
(`live_search.py:600-605`): remaining text and new cursor. -/
def delete_backward_word (text : List Char) (pos : Nat) : List Char × Nat :=
  let np := find_word_boundary_backward text pos
  (text.take np ++ text.drop pos, np)

/-- Main loop of `move_word_left` (`live_search.py:164-184`): like
`fwbLoop` but the underscore is never consumed. -/
def mwlLoop (text : List Char) : Nat → Nat
  | 0 => 0
  | i + 1 =>
    let prev := text.getD i ' '
    let curr := text.getD (i + 1) ' '
    if isHWs prev then i + 1
    else if prev = '_' ∨ curr = '_' then i + 1
    else if prev.isLower ∧ curr.isUpper then i + 1
    else if prev.isDigit ≠ curr.isDigit then i + 1
    else mwlLoop text i

/-- `move_word_left(text, pos)` from `live_search.py:149-186`. -/
def move_word_left (text : List Char) (pos : Nat) : Nat :=
  if pos = 0 then 0
  else
    match scanBack isHWs text (pos - 1) with
    | none => 0
    | some i => mwlLoop text i

/-- Main loop of `move_word_right` (`live_search.py:203-227`), with fuel
(the wrapper passes `text.length - i`; the loop advances `i` by one each
iteration, so that fuel is exact). -/
def mwrLoopAux (text : List Char) : Nat → Nat → Nat
  | 0, i => i
  | fuel + 1, i =>
    if i < text.length - 1 then
      let curr := text.getD i ' '
      let next := text.getD (i + 1) ' '
      if isHWs next then i + 1
      else if next = '_' then i + 1
      else if curr.isLower ∧ next.isUpper then i + 1
      else if curr.isDigit ≠ next.isDigit then i + 1
      else mwrLoopAux text fuel (i + 1)
    else i

/-- Main loop of `move_word_right`: `while i < len(text) - 1: ...`. -/
def mwrLoop (text : List Char) (i : Nat) : Nat :=
  mwrLoopAux text (text.length - i) i

/-- `move_word_right(text, pos)` from `live_search.py:188-233`.  Note that
the final `if i < len(text): i += 1` of the source runs after the loop no
matter how the loop exited. -/
def move_word_right (text : List Char) (pos : Nat) : Nat :=
  if pos ≥ text.length then text.length
  else if scanFwd isHWs text pos ≥ text.length then text.length
  else if mwrLoop text (scanFwd isHWs text pos) < text.length then
    mwrLoop text (scanFwd isHWs text pos) + 1
  else mwrLoop text (scanFwd isHWs text pos)

/-- `move_word_left_alphanum(text, pos)` from `live_search.py:235-249`:
skip non-alphanumeric characters leftwards, then skip the alphanumeric
run, and return one past where that stopped. -/
def move_word_left_alphanum (text : List Char) (pos : Nat) : Nat :=
  if pos = 0 then 0
  else
    match scanBack (fun c => !c.isAlphanum) text (pos - 1) with
    | none => 0
    | some i =>
      match scanBack (fun c => c.isAlphanum) text i with
      | none => 0
      | some j => j + 1

/-- `move_word_right_alphanum(text, pos)` from `live_search.py:251-265`. -/
def move_word_right_alphanum (text : List Char) (pos : Nat) : Nat :=
  if pos ≥ text.length then text.length
  else scanFwd (fun c => c.isAlphanum) text (scanFwd (fun c => !c.isAlphanum) text pos)

/-!
## Search evaluator

`count_matches` and `find_matches_with_positions` delegate to Python's `re`
module (standard library, not part of this repository).  The `re` engine is
modelled for exactly the fragment the program exercises: patterns produced
by `re.escape` (literal matching, case-insensitive, non-overlapping
left-to-right as `findall`/`finditer` scan) and syntactic validity of a raw
pattern (group balance and escape completeness — enough to witness that
`"("` fails to compile).  A syntactically valid pattern outside the literal
fragment is represented by the opaque `RePattern.complex` constructor,
which no claim exercises.
-/

/-- The characters Python's `re.escape` prefixes with a backslash. -/
def reEscapeSet : List Char :=
  ['(', ')', '[', ']', '{', '}', '?', '*', '+', '-', '|', '^', '$', '\\',
   '.', '&', '~', '#', ' ', '\t', '\n', '\r', '\x0b', '\x0c']

/-- Characters that carry regex meaning when they appear unescaped, so a
pattern containing one of them is not a plain literal. -/
def reMetaChars : List Char :=
  ['(', ')', '[', ']', '{', '}', '?', '*', '+', '|', '^', '$', '.', '\\']

/-- Python `re.escape`. -/
def re_escape : List Char → List Char
  | [] => []
  | c :: rest =>
    if c ∈ reEscapeSet then '\\' :: c :: re_escape rest else c :: re_escape rest

/-- Reads a pattern as a plain literal: ordinary characters stand for
themselves and a backslash-escaped non-alphanumeric character stands for
that character.  Returns `none` when the pattern uses any construct beyond
that (unescaped metacharacter, character-class escape such as `\d`, or a
trailing backslash). -/
def patternLiteral? : List Char → Option (List Char)
  | [] => some []
  | c :: rest =>
    if c = '\\' then
      match rest with
      | [] => none
      | d :: r => if d.isAlphanum then none else (patternLiteral? r).map (d :: ·)
    else if c ∈ reMetaChars then none
    else (patternLiteral? rest).map (c :: ·)

/-- Syntactic validity check for a raw regex pattern: every backslash is
followed by a character and groups balance.  `re.compile` rejects
everything this rejects; in particular `"("` (unterminated group). -/
def regexGroupsOk : List Char → Nat → Bool
  | [], d => d = 0
  | c :: rest, d =>
    if c = '\\' then
      match rest with
      | [] => false
      | _ :: r => regexGroupsOk r d
    else if c = '(' then regexGroupsOk rest (d + 1)
    else if c = ')' then
      match d with
      | 0 => false
      | d' + 1 => regexGroupsOk rest d'
    else regexGroupsOk rest d

/-- A compiled case-insensitive pattern: either a plain literal, or a
valid regex beyond the modelled literal fragment. -/
inductive RePattern where
  | literal (chars : List Char)
  | complex (raw : List Char)
deriving DecidableEq

/-- `re.compile(..., re.IGNORECASE)` as used by `count_matches` and
`find_matches_with_positions` (`live_search.py:310-313` and `353-356`):
in literal mode the text is first passed through `re.escape`; in regex
mode an invalid pattern yields `none` (the Python `except` path). -/
def re_compile (pat : List Char) (use_regex : Bool) : Option RePattern :=
  if use_regex then
    if regexGroupsOk pat 0 then
      some (match patternLiteral? pat with
            | some lit => .literal lit
            | none => .complex pat)
    else none
  else
    some (match patternLiteral? (re_escape pat) with
          | some lit => .literal lit
          | none => .complex (re_escape pat))

/-- Non-overlapping left-to-right scan counting occurrences of `needle`,
exactly as `findall` scans a literal pattern: at each position, on a match
advance past it, otherwise advance one character.  Fuel is the remaining
haystack length (the wrapper `scanCount` passes `hay.length`). -/
def scanCountAux (needle : List Char) : Nat → List Char → Nat
  | 0, _ => 0
  | fuel + 1, hay =>
    match hay with
    | [] => 0
    | c :: rest =>
      if needle ≠ [] ∧ (c :: rest).take needle.length = needle then
        1 + scanCountAux needle fuel (rest.drop (needle.length - 1))
      else scanCountAux needle fuel rest

/-- Number of non-overlapping occurrences of `needle` in `hay`. -/
def scanCount (needle hay : List Char) : Nat :=
  scanCountAux needle hay.length hay

/-- Number of matches of a compiled pattern in a haystack
(`len(pattern.findall(...))` / counting `finditer`).  Case-insensitivity
is the `IGNORECASE` flag: both sides are lowercased.  Matching of valid
non-literal regexes is outside the modelled fragment. -/
def patCount : RePattern → List Char → Nat
  | .literal lit, hay => scanCount (lit.map pyLower) (hay.map pyLower)
  | .complex _, _ => 0

/-- `count_matches(text, search_text, use_regex)` from
`live_search.py:348-359`. -/
def count_matches (text search_text : List Char) (use_regex : Bool) : Nat :=
  if search_text = [] then 0
  else
    match re_compile search_text use_regex with
    | none => 0
    | some p => patCount p text

/-- Python `text.split('\n')` seen from the right: first component is the
first line of the input, second is the remaining lines. -/
def splitLinesAux : List Char → List Char × List (List Char)
  | [] => ([], [])
  | c :: rest =>
    let r := splitLinesAux rest
    if c = '\n' then ([], r.1 :: r.2) else (c :: r.1, r.2)

/-- Python `text.split('\n')`. -/
def splitLines (s : List Char) : List (List Char) :=
  (splitLinesAux s).1 :: (splitLinesAux s).2

/-- `find_matches_with_positions(text, search_text, use_regex)` from
`live_search.py:304-323`: the 1-based line number of every match, one
entry per match, lines scanned in order. -/
def find_matches_with_positions (text search_text : List Char)
    (use_regex : Bool) : List Nat :=
  if search_text = [] then []
  else
    match re_compile search_text use_regex with
    | none => []
    | some p =>
      (List.enumFrom 1 (splitLines text)).flatMap
        (fun pr => List.replicate (patCount p pr.2) pr.1)

/-!
## Marker-color policy (`create_marker`)
-/

/-- Python substring test `needle in hay`. -/
def substrIn (needle : List Char) : List Char → Bool
  | [] => needle = []
  | c :: rest => (c :: rest).take needle.length = needle || substrIn needle rest

/-- The error-related terms of `live_search.py:376`. -/
def alertWords : List (List Char) :=
  ["error".toList, "fail".toList, "failed".toList, "fatal".toList, "critical".toList]

/-- The warning-related terms of `live_search.py:379`. -/
def warnWords : List (List Char) :=
  ["warn".toList, "warning".toList, "caution".toList]

/-- The external highlight command `create_marker` issues. -/
inductive MarkerCmd where
  | remove
  | create (use_regex : Bool) (group : Char) (text : List Char)
deriving DecidableEq

/-- `create_marker(window_id, text, use_regex)` from `live_search.py:361-392`
(group `'3'` is the alert/red category, `'2'` warning/orange, `'1'` the
default yellow; empty text removes the marker instead). -/
def create_marker (text : List Char) (use_regex : Bool) : MarkerCmd :=
  if text = [] then .remove
  else if use_regex = true ∧ text.contains '|' then .create use_regex '1' text
  else if alertWords.any (fun w => substrIn w (text.map pyLower)) then
    .create use_regex '3' text
  else if warnWords.any (fun w => substrIn w (text.map pyLower)) then
    .create use_regex '2' text
  else .create use_regex '1' text

/-- The marker category as claim C2 words it: alert if the lowercased text
contains an alert word, otherwise warning if it contains a warning word,
otherwise default — except that regex mode with a `'|'` in the text always
selects the default category. -/
def markCategorySpec (text : List Char) (use_regex : Bool) : Char :=
  if use_regex = true ∧ text.contains '|' then '1'
  else if alertWords.any (fun w => substrIn w (text.map pyLower)) then '3'
  else if warnWords.any (fun w => substrIn w (text.map pyLower)) then '2'
  else '1'

/-!
## Input decoding and the session loop

The body of the `while True:` loop of `main` (`live_search.py:514-691`) is
embedded as a step function over the loop's mutable state and the list of
input bytes not yet consumed (each `Char` stands for one byte read from
stdin; `ord` is `Char.toNat`).  External collaborator calls inside the loop
(redraw, marker creation/removal, scrolling) are side effects with no
bearing on the loop state and are not tracked; the exit path
(`live_search.py:693-699`) is modelled by `session_finish`, which records
whether `remove_marker` ran and the exact text handed to
`save_last_search`.
-/

/-- The action the loop body takes on the byte just read, in the source's
branch order (`live_search.py:519-598`): printable bytes are tested first,
then the control bytes, everything else falls through and is ignored. -/
inductive GroundAction where
  | insertChar | interrupt | refresh | toggleRegex | toggleAutoJump
  | enter | backspace | escape | ignored
deriving DecidableEq

/-- Dispatch on `ord(char)` for one byte in the ground state. -/
def classifyGround (b : Nat) : GroundAction :=
  if 32 ≤ b ∧ b < 127 then .insertChar
  else if b = 0x03 then .interrupt
  else if b = 0x12 then .refresh
  else if b = 0x09 then .toggleRegex
  else if b = 0x0a then .toggleAutoJump
  else if b = 0x0d then .enter
  else if b = 0x7f then .backspace
  else if b = 0x1b then .escape
  else .ignored

/-- The loop's mutable state (`live_search.py:447-451`). -/
structure LoopState where
  search_text : List Char
  cursor_pos : Nat
  use_regex : Bool
  auto_jump : Bool
  should_clear_on_exit : Bool
deriving DecidableEq

/-- Outcome of one loop iteration: continue with new state and remaining
input, leave the loop (`break`), or block forever on a read the input list
cannot satisfy. -/
inductive StepResult where
  | cont (st : LoopState) (rest : List Char)
  | exit (st : LoopState) (rest : List Char)
  | blocked
deriving DecidableEq

/-- Splice `frag` into `text` at offset `pos` (Python
`text[:pos] + frag + text[pos:]`). -/
def insertAt (text frag : List Char) (pos : Nat) : List Char :=
  text.take pos ++ frag ++ text.drop pos

/-- The drain loop for unbracketed paste bursts (`live_search.py:522-529`):
while more input is immediately available, read one byte; printable bytes
join the burst, the first non-printable byte is consumed and dropped and
the drain stops.  Returns the extra printable bytes and the input left. -/
def coalesce : List Char → List Char × List Char
  | [] => ([], [])
  | c :: rest =>
    if 32 ≤ c.toNat ∧ c.toNat < 127 then
      let pr := coalesce rest
      (c :: pr.1, pr.2)
    else ([], rest)

/-- The bracketed-paste capture loop (`live_search.py:618-627`): accumulate
bytes until an ESC whose following five bytes equal `"[201~"`; on a
mismatch only the ESC is appended — the five compared bytes are consumed
and dropped (`pasted += c` appends just `c`).  Fuel is the input length;
`none` models a read blocking forever. -/
def pasteCaptureAux : Nat → List Char → List Char → Option (List Char × List Char)
  | 0, _, _ => none
  | fuel + 1, stream, acc =>
    match stream with
    | [] => none
    | c :: rest =>
      if c = '\x1b' then
        if rest.length < 5 then none
        else if rest.take 5 = "[201~".toList then some (acc, rest.drop 5)
        else pasteCaptureAux fuel (rest.drop 5) (acc ++ [c])
      else pasteCaptureAux fuel rest (acc ++ [c])

/-- The bracketed-paste capture loop, fuelled by the available input. -/
def pasteCapture (stream acc : List Char) : Option (List Char × List Char) :=
  pasteCaptureAux stream.length stream acc

/-- The escape branch (`live_search.py:598-691`): `input` is the stream
after the initial `0x1b` byte. -/
def handleEscape (st : LoopState) (input : List Char) : StepResult :=
  match input with
  | [] => .blocked
  | n1 :: rest =>
    if n1 = '\x7f' then
      -- Option/Cmd+Backspace: smart word delete
      if st.cursor_pos > 0 then
        let np := find_word_boundary_backward st.search_text st.cursor_pos
        let t := st.search_text.take np ++ st.search_text.drop st.cursor_pos
        .cont { st with search_text := t, cursor_pos := np,
                        should_clear_on_exit :=
                          if t = [] then true else st.should_clear_on_exit } rest
      else .cont st rest
    else if n1 = '[' then
      match rest with
      | [] => .blocked
      | n2 :: rest2 =>
        if n2 = '2' then
          if rest2.length < 3 then .blocked
          else if rest2.take 3 = "00~".toList then
            match pasteCapture (rest2.drop 3) [] with
            | none => .blocked
            | some (pasted, rest3) =>
              .cont { st with
                        search_text := insertAt st.search_text pasted st.cursor_pos,
                        cursor_pos := st.cursor_pos + pasted.length } rest3
          else .cont st (rest2.drop 3)
        else if n2 = 'A' ∨ n2 = 'B' then .cont st rest2
        else if n2 = 'C' then
          .cont { st with cursor_pos :=
                    if st.cursor_pos < st.search_text.length then st.cursor_pos + 1
                    else st.cursor_pos } rest2
        else if n2 = 'D' then
          .cont { st with cursor_pos :=
                    if st.cursor_pos > 0 then st.cursor_pos - 1
                    else st.cursor_pos } rest2
        else if n2 = '1' then
          match rest2 with
          | [] => .blocked
          | [_] => .blocked
          | n3 :: n4 :: rest4 =>
            if n3 = ';' ∧ (n4 = '3' ∨ n4 = '9') then
              match rest4 with
              | [] => .blocked
              | n5 :: rest5 =>
                if n5 = 'C' then
                  .cont { st with
                            cursor_pos := move_word_right st.search_text st.cursor_pos } rest5
                else if n5 = 'D' then
                  .cont { st with
                            cursor_pos := move_word_left st.search_text st.cursor_pos } rest5
                else .cont st rest5
            else .cont st rest4
        else .cont st rest2
    else .exit { st with should_clear_on_exit := true } rest

/-- One iteration of the main loop. -/
def loopStep (st : LoopState) (input : List Char) : StepResult :=
  match input with
  | [] => .blocked
  | ch :: rest =>
    match classifyGround ch.toNat with
    | .insertChar =>
      let pr := coalesce rest
      .cont { st with
                search_text := insertAt st.search_text (ch :: pr.1) st.cursor_pos,
                cursor_pos := st.cursor_pos + (ch :: pr.1).length } pr.2
    | .interrupt => .exit { st with should_clear_on_exit := true } rest
    | .refresh => .cont st rest
    | .toggleRegex => .cont { st with use_regex := !st.use_regex } rest
    | .toggleAutoJump => .cont { st with auto_jump := !st.auto_jump } rest
    | .enter => .exit { st with should_clear_on_exit := false } rest
    | .backspace =>
      if st.cursor_pos > 0 then
        let t := st.search_text.take (st.cursor_pos - 1) ++
                 st.search_text.drop st.cursor_pos
        .cont { st with search_text := t, cursor_pos := st.cursor_pos - 1,
                        should_clear_on_exit :=
                          if t = [] then true else st.should_clear_on_exit } rest
      else .cont st rest
    | .escape => handleEscape st rest
    | .ignored => .cont st rest

/-- What the exit path reports to the outside world. -/
structure ExitEffect where
  marker_removed : Bool
  saved_text : List Char
deriving DecidableEq

/-- The code after the loop (`live_search.py:693-699`): when
`should_clear_on_exit` is set, `remove_marker` runs and `search_text` is
emptied, and only then is `save_last_search(search_text)` called. -/
def session_finish (st : LoopState) : ExitEffect :=
  if st.should_clear_on_exit then { marker_removed := true, saved_text := [] }
  else { marker_removed := false, saved_text := st.search_text }

/-!
## Theorems
-/

/-- C6: smart-policy backward word deletion at end of string: on
`"foo_bar"` the boundary is 3 (the underscore is consumed) and the
remaining text is `"foo"`; on `"fooBar"` the boundary is 3 (camelCase
transition) leaving `"foo"`; on `"foo123"` the boundary is 3 (digit
transition) leaving `"foo"`. -/
theorem claim_C6 :
    find_word_boundary_backward "foo_bar".toList 7 = 3 ∧
    (delete_backward_word "foo_bar".toList 7).1 = "foo".toList ∧
    find_word_boundary_backward "fooBar".toList 6 = 3 ∧
    (delete_backward_word "fooBar".toList 6).1 = "foo".toList ∧
    find_word_boundary_backward "foo123".toList 6 = 3 ∧
    (delete_backward_word "foo123".toList 6).1 = "foo".toList := by decide

/-- C2: for every non-empty search text the marker group chosen by
`create_marker` is exactly the category the spec describes (alert `'3'`
for error-like words, else warning `'2'` for warn-like words, else default
`'1'`, with regex-mode alternation forcing the default), and the four
concrete examples hold. -/
theorem claim_C2 :
    (∀ (s : List Char) (r : Bool), s ≠ [] →
      create_marker s r = MarkerCmd.create r (markCategorySpec s r) s) ∧
    create_marker "Connection FAILED".toList false =
      MarkerCmd.create false '3' "Connection FAILED".toList ∧
    create_marker "Warning: low disk".toList false =
      MarkerCmd.create false '2' "Warning: low disk".toList ∧
    create_marker "hello".toList false =
      MarkerCmd.create false '1' "hello".toList ∧
    create_marker "foo|bar".toList true =
      MarkerCmd.create true '1' "foo|bar".toList := by
  refine ⟨?_, by decide, by decide, by decide, by decide⟩
  intro s r hs
  unfold create_marker markCategorySpec
  rw [if_neg hs]
  split
  · rfl
  · split
    · rfl
    · split <;> rfl

/-- C2 witness: the universal part applied at `"hello"`, `false`. -/
theorem wit_C2 :
    create_marker "hello".toList false =
      MarkerCmd.create false (markCategorySpec "hello".toList false) "hello".toList :=
  claim_C2.1 "hello".toList false (by decide)

/-- C3 counterexample: byte `0x08` is ignored by the loop, not mapped to
Backspace; byte `0x0a` toggles auto-jump rather than acting as Enter; and
byte `0x12` triggers a refresh rather than being ignored — refuting the
claimed Ground-state table at these bytes. -/
theorem cex_C3 :
    classifyGround 0x08 = GroundAction.ignored ∧
    classifyGround 0x08 ≠ GroundAction.backspace ∧
    classifyGround 0x0a = GroundAction.toggleAutoJump ∧
    classifyGround 0x0a ≠ GroundAction.enter ∧
    classifyGround 0x12 = GroundAction.refresh ∧
    classifyGround 0x12 ≠ GroundAction.ignored := by decide

/-- C3 (amended): the Ground-state byte table the code implements:
`0x03` → Interrupt, `0x0d` → Enter, `0x0a` → ToggleAutoJump,
`0x09` → ToggleRegex, `0x7f` → Backspace (`0x08` is not special),
`0x12` → Refresh, `0x1b` → escape processing, printable `[0x20,0x7e]` →
character insertion, and every other byte is ignored. -/
theorem claim_C3 : ∀ b : Fin 256,
    (b.val = 0x03 → classifyGround b.val = .interrupt) ∧
    (b.val = 0x0d → classifyGround b.val = .enter) ∧
    (b.val = 0x0a → classifyGround b.val = .toggleAutoJump) ∧
    (b.val = 0x09 → classifyGround b.val = .toggleRegex) ∧
    (b.val = 0x7f → classifyGround b.val = .backspace) ∧
    (b.val = 0x12 → classifyGround b.val = .refresh) ∧
    (b.val = 0x1b → classifyGround b.val = .escape) ∧
    (32 ≤ b.val → b.val ≤ 126 → classifyGround b.val = .insertChar) ∧
    (b.val ∉ ([0x03, 0x09, 0x0a, 0x0d, 0x12, 0x1b, 0x7f] : List Nat) →
      ¬(32 ≤ b.val ∧ b.val ≤ 126) → classifyGround b.val = .ignored) := by
  set_option maxRecDepth 8192 in decide

/-- C3 witness: the amended table applied at byte `0x08`. -/
theorem wit_C3 : classifyGround 0x08 = GroundAction.ignored :=
  (claim_C3 (⟨0x08, by decide⟩ : Fin 256)).2.2.2.2.2.2.2.2 (by decide) (by decide)

/-- C4 counterexample: during paste capture, after an ESC whose following
five bytes are `"abcde"` (not the end marker), the captured content is
only the ESC byte — the five compared bytes are consumed and dropped, not
appended as the claim states. -/
theorem cex_C4 :
    pasteCapture ('\x1b' :: "abcde\x1b[201~".toList) [] = some (['\x1b'], []) ∧
    (['\x1b'] : List Char) ≠ '\x1b' :: "abcde".toList := by decide

/-- C4 (amended): bracketed-paste capture accumulates bytes verbatim until
`ESC [ 2 0 1 ~`; on an ESC whose next five bytes mismatch, only the
consumed ESC is appended (the five bytes are dropped).  Feeding
`ESC [ 2 0 0 ~ H i ESC [ 2 0 1 ~` inserts exactly `"Hi"` at the cursor,
once. -/
theorem claim_C4 :
    (∀ st : LoopState,
      loopStep st ('\x1b' :: "[200~Hi\x1b[201~".toList) =
        .cont { st with
                  search_text := insertAt st.search_text "Hi".toList st.cursor_pos,
                  cursor_pos := st.cursor_pos + 2 } []) ∧
    pasteCapture ('\x1b' :: "abcde\x1b[201~".toList) [] = some (['\x1b'], []) :=
  ⟨fun _ => rfl, by decide⟩

/-- C5 counterexample: with in-progress text `"abc"`, Ctrl+C exits with
the clear flag set, and the final persistence step then saves the empty
string — not the attempted text `"abc"` as the claim states. -/
theorem cex_C5 :
    loopStep ⟨"abc".toList, 3, false, false, false⟩ ['\x03'] =
      .exit ⟨"abc".toList, 3, false, false, true⟩ [] ∧
    session_finish ⟨"abc".toList, 3, false, false, true⟩ =
      { marker_removed := true, saved_text := [] } ∧
    ([] : List Char) ≠ "abc".toList := by decide

/-- C5 (amended): terminating via Interrupt (`0x03`) or a bare Escape sets
the clear flag; the exit path then removes the highlight, discards the
in-progress text, and the final `save_last_search` call writes the empty
string to the persisted store (not the attempted text). -/
theorem claim_C5 :
    (∀ (st : LoopState) (rest : List Char),
      loopStep st ('\x03' :: rest) =
        .exit { st with should_clear_on_exit := true } rest) ∧
    (∀ (st : LoopState) (b : Char) (rest : List Char), b ≠ '\x7f' → b ≠ '[' →
      loopStep st ('\x1b' :: b :: rest) =
        .exit { st with should_clear_on_exit := true } rest) ∧
    (∀ st : LoopState,
      session_finish { st with should_clear_on_exit := true } =
        { marker_removed := true, saved_text := [] }) := by
  refine ⟨fun st rest => rfl, ?_, fun st => rfl⟩
  intro st b rest h1 h2
  show handleEscape st (b :: rest) = _
  simp only [handleEscape, if_neg h1, if_neg h2]

/-- C5 witness: the escape-cancel part applied with in-progress text
`"abc"` and follow-up byte `'q'`. -/
theorem wit_C5 :
    loopStep ⟨"abc".toList, 3, false, false, false⟩ ('\x1b' :: ['q']) =
      .exit ⟨"abc".toList, 3, false, false, true⟩ [] :=
  claim_C5.2.1 ⟨"abc".toList, 3, false, false, false⟩ 'q' [] (by decide) (by decide)

/-- C9: a non-printable byte drained during the printable-burst coalescing
loop is consumed and silently discarded: the iteration continues (no break
out of the session loop, so the byte's own key event is never generated),
only the printable prefix is inserted, and the dropped byte is gone from
the remaining input. -/
theorem claim_C9 : ∀ (st : LoopState) (c d : Char) (rest : List Char),
    32 ≤ c.toNat ∧ c.toNat < 127 → ¬(32 ≤ d.toNat ∧ d.toNat < 127) →
    loopStep st (c :: d :: rest) =
      .cont { st with search_text := insertAt st.search_text [c] st.cursor_pos,
                      cursor_pos := st.cursor_pos + 1 } rest := by
  intro st c d rest hc hd
  have h1 : classifyGround c.toNat = .insertChar := by
    unfold classifyGround; rw [if_pos hc]
  have h2 : coalesce (d :: rest) = ([], rest) := by
    unfold coalesce; rw [if_neg hd]
  simp only [loopStep, h1, h2]
  rfl

/-- C9 witness: typing `'a'` with a raw Enter byte (`0x0d`) drained in the
same burst inserts only `'a'`; the Enter byte vanishes without its event. -/
theorem wit_C9 :
    loopStep ⟨[], 0, false, false, false⟩ ['a', '\x0d'] =
      .cont ⟨['a'], 1, false, false, false⟩ [] :=
  claim_C9 ⟨[], 0, false, false, false⟩ 'a' '\x0d' [] (by decide) (by decide)

/-- Every regex metacharacter is escaped by `re.escape`. -/
theorem mem_meta_mem_escape {c : Char} (h : c ∈ reMetaChars) : c ∈ reEscapeSet := by
  fin_cases h <;> decide

/-- No character `re.escape` escapes is alphanumeric. -/
theorem mem_escape_not_alnum {c : Char} (h : c ∈ reEscapeSet) : c.isAlphanum = false := by
  fin_cases h <;> decide

/-- One-step unfolding of `patternLiteral?` at a cons cell. -/
theorem patternLiteral_cons (c : Char) (rest : List Char) :
    patternLiteral? (c :: rest) =
      if c = '\\' then
        (match rest with
         | [] => none
         | d :: r => if d.isAlphanum then none else (patternLiteral? r).map (d :: ·))
      else if c ∈ reMetaChars then none
      else (patternLiteral? rest).map (c :: ·) := by
  rw [patternLiteral?.eq_def]

/-- Escaping a string and reading the result back as a literal pattern
returns the original string: the literal mode of `count_matches` matches
the raw search text literally. -/
theorem patternLiteral_re_escape : ∀ s : List Char, patternLiteral? (re_escape s) = some s := by
  intro s
  induction s with
  | nil => rfl
  | cons c rest ih =>
    by_cases hc : c ∈ reEscapeSet
    · have hna : c.isAlphanum = false := mem_escape_not_alnum hc
      have h1 : re_escape (c :: rest) = '\\' :: c :: re_escape rest := by
        simp only [re_escape, if_pos hc]
      rw [h1, patternLiteral_cons, if_pos rfl]
      show (if c.isAlphanum = true then none
            else (patternLiteral? (re_escape rest)).map (c :: ·)) = some (c :: rest)
      rw [hna, if_neg (by simp), ih]
      rfl
    · have hm : c ∉ reMetaChars := fun hmm => hc (mem_meta_mem_escape hmm)
      have hbs : c ≠ '\\' := by
        intro h
        exact hc (h ▸ (by decide : ('\\' : Char) ∈ reEscapeSet))
      have h1 : re_escape (c :: rest) = c :: re_escape rest := by
        simp only [re_escape, if_neg hc]
      rw [h1, patternLiteral_cons, if_neg hbs, if_neg hm, ih]
      rfl

/-- In literal mode, compilation always yields the literal pattern of the
raw search text. -/
theorem re_compile_literal (s : List Char) :
    re_compile s false = some (RePattern.literal s) := by
  unfold re_compile
  rw [patternLiteral_re_escape s]
  rfl

/-- A scan with an empty needle counts nothing. -/
theorem scanCountAux_nil_needle : ∀ (fuel : Nat) (hay : List Char),
    scanCountAux [] fuel hay = 0 := by
  intro fuel
  induction fuel with
  | zero => intro hay; rfl
  | succ fuel ih =>
    intro hay
    cases hay with
    | nil => rfl
    | cons c rest =>
      simp only [scanCountAux, ne_eq, not_true_eq_false, false_and, if_false]
      exact ih rest

/-- C1: `count_matches` returns 0 on an empty search text; in literal mode
it equals the case-insensitive non-overlapping occurrence count of the raw
search text over the whole corpus (metacharacters are escaped, so matched
literally); an invalid regex pattern such as `"("` yields 0 for every
corpus; and the two concrete literal examples hold. -/
theorem claim_C1 :
    (∀ (t : List Char) (r : Bool), count_matches t [] r = 0) ∧
    (∀ t s : List Char,
      count_matches t s false = scanCount (s.map pyLower) (t.map pyLower)) ∧
    (∀ t : List Char, count_matches t ['('] true = 0) ∧
    count_matches "Error: fail".toList "error".toList false = 1 ∧
    count_matches "aaa".toList "a".toList false = 3 := by
  refine ⟨fun t r => rfl, ?_, fun t => rfl, by decide, by decide⟩
  intro t s
  by_cases hs : s = []
  · subst hs
    show 0 = scanCountAux [] (t.map pyLower).length (t.map pyLower)
    rw [scanCountAux_nil_needle]
  · unfold count_matches
    rw [if_neg hs, re_compile_literal]
    rfl

/-- A downward scan that stops does so at or left of its start. -/
theorem scanBack_le {p : Char → Bool} {text : List Char} :
    ∀ i j, scanBack p text i = some j → j ≤ i := by
  intro i
  induction i with
  | zero =>
    intro j h
    unfold scanBack at h
    split at h
    · exact absurd h (by simp)
    · injection h with h; omega
  | succ i ih =>
    intro j h
    unfold scanBack at h
    split at h
    · exact Nat.le_trans (ih j h) (Nat.le_succ i)
    · injection h with h; omega

/-- The `move_word_left` loop never moves right. -/
theorem mwlLoop_le (text : List Char) : ∀ i, mwlLoop text i ≤ i := by
  intro i
  induction i with
  | zero => exact Nat.le_refl 0
  | succ i ih =>
    unfold mwlLoop
    dsimp only
    split_ifs <;> try exact Nat.le_refl _
    exact Nat.le_trans ih (Nat.le_succ i)

/-- The `move_word_right` loop never passes `length - 1` when started at
or left of it. -/
theorem mwrLoopAux_le (text : List Char) :
    ∀ fuel i, mwrLoopAux text fuel i ≤ max i (text.length - 1) := by
  intro fuel
  induction fuel with
  | zero => intro i; exact Nat.le_max_left _ _
  | succ fuel ih =>
    intro i
    unfold mwrLoopAux
    split
    · rename_i hlt
      dsimp only
      split_ifs <;> try omega
      have := ih (i + 1)
      omega
    · exact Nat.le_max_left _ _

/-- C7: smart word navigation preserves the cursor range: for every text
and every cursor position within the text, both `move_word_left` and
`move_word_right` return an offset in `[0, length]` (the lower bound is
inherent in the `Nat` embedding; the source loops likewise guard
`i >= 0`). -/
theorem claim_C7 : ∀ (T : List Char) (p : Nat), p ≤ T.length →
    move_word_left T p ≤ T.length ∧ move_word_right T p ≤ T.length := by
  intro T p hp
  constructor
  · unfold move_word_left
    split
    · exact Nat.zero_le _
    · split
      · exact Nat.zero_le _
      · rename_i i heq
        have h1 : i ≤ p - 1 := scanBack_le (p - 1) i heq
        have h2 := mwlLoop_le T i
        omega
  · unfold move_word_right
    split_ifs with h1 h2 h3
    · exact Nat.le_refl _
    · exact Nat.le_refl _
    · have := mwrLoopAux_le T (T.length - scanFwd isHWs T p) (scanFwd isHWs T p)
      unfold mwrLoop at h3 ⊢
      omega
    · have := mwrLoopAux_le T (T.length - scanFwd isHWs T p) (scanFwd isHWs T p)
      unfold mwrLoop at h3 ⊢
      omega

/-- C7 witness: the range invariant at `"foo bar"`, cursor 5. -/
theorem wit_C7 :
    move_word_left "foo bar".toList 5 ≤ "foo bar".toList.length ∧
    move_word_right "foo bar".toList 5 ≤ "foo bar".toList.length :=
  claim_C7 "foo bar".toList 5 (by decide)

/-- An upward scan never moves left. -/
theorem scanFwdAux_ge (p : Char → Bool) (text : List Char) :
    ∀ fuel i, i ≤ scanFwdAux p text fuel i := by
  intro fuel
  induction fuel with
  | zero => intro i; exact Nat.le_refl i
  | succ fuel ih =>
    intro i
    unfold scanFwdAux
    split
    · split
      · exact Nat.le_trans (Nat.le_succ i) (ih (i + 1))
      · exact Nat.le_refl i
    · exact Nat.le_refl i

/-- An upward scan started inside the text stays within it. -/
theorem scanFwdAux_le_len (p : Char → Bool) (text : List Char) :
    ∀ fuel i, i ≤ text.length → scanFwdAux p text fuel i ≤ text.length := by
  intro fuel
  induction fuel with
  | zero => intro i h; exact h
  | succ fuel ih =>
    intro i h
    unfold scanFwdAux
    split
    · split
      · exact ih (i + 1) (by omega)
      · exact h
    · exact h

/-- Every index passed over by an upward scan satisfies the predicate. -/
theorem scanFwdAux_all (p : Char → Bool) (text : List Char) :
    ∀ fuel i k, i ≤ k → k < scanFwdAux p text fuel i →
      p (text.getD k ' ') = true := by
  intro fuel
  induction fuel with
  | zero =>
    intro i k hik hk
    unfold scanFwdAux at hk
    omega
  | succ fuel ih =>
    intro i k hik hk
    unfold scanFwdAux at hk
    split at hk
    · split at hk
      · rename_i hpred
        by_cases hki : k = i
        · rwa [hki]
        · exact ih (i + 1) k (by omega) hk
      · omega
    · omega

/-- The fuel of an upward scan is irrelevant once it covers the distance
to the end of the text. -/
theorem scanFwdAux_congr (p : Char → Bool) (text : List Char) :
    ∀ f g i, text.length - i ≤ f → text.length - i ≤ g →
      scanFwdAux p text f i = scanFwdAux p text g i := by
  intro f
  induction f with
  | zero =>
    intro g i h1 h2
    cases g with
    | zero => rfl
    | succ g =>
      show i = scanFwdAux p text (g + 1) i
      unfold scanFwdAux
      rw [if_neg (by omega)]
  | succ f ih =>
    intro g i h1 h2
    cases g with
    | zero =>
      show scanFwdAux p text (f + 1) i = i
      unfold scanFwdAux
      rw [if_neg (by omega)]
    | succ g =>
      show scanFwdAux p text (f + 1) i = scanFwdAux p text (g + 1) i
      unfold scanFwdAux
      split
      · split
        · exact ih g (i + 1) (by omega) (by omega)
        · rfl
      · rfl

/-- `scanFwd` never moves left. -/
theorem scanFwd_ge (p : Char → Bool) (text : List Char) (i : Nat) :
    i ≤ scanFwd p text i :=
  scanFwdAux_ge p text _ i

/-- `scanFwd` started inside the text stays within it. -/
theorem scanFwd_le_len (p : Char → Bool) (text : List Char) {i : Nat}
    (h : i ≤ text.length) : scanFwd p text i ≤ text.length :=
  scanFwdAux_le_len p text _ i h

/-- Every index passed over by `scanFwd` satisfies the predicate. -/
theorem scanFwd_all (p : Char → Bool) (text : List Char) {i k : Nat}
    (hik : i ≤ k) (hk : k < scanFwd p text i) : p (text.getD k ' ') = true :=
  scanFwdAux_all p text _ i k hik hk

/-- `scanFwd` stops immediately where the predicate fails. -/
theorem scanFwd_id (p : Char → Bool) (text : List Char) {i : Nat}
    (hi : i < text.length) (hp : p (text.getD i ' ') = false) :
    scanFwd p text i = i := by
  unfold scanFwd
  obtain ⟨f, hf⟩ : ∃ f, text.length - i = f + 1 := ⟨text.length - i - 1, by omega⟩
  rw [hf]
  unfold scanFwdAux
  rw [if_pos hi, hp]
  simp

/-- `scanFwd` steps over an index where the predicate holds. -/
theorem scanFwd_suc (p : Char → Bool) (text : List Char) {i : Nat}
    (hi : i < text.length) (hp : p (text.getD i ' ') = true) :
    scanFwd p text i = scanFwd p text (i + 1) := by
  unfold scanFwd
  obtain ⟨f, hf⟩ : ∃ f, text.length - i = f + 1 := ⟨text.length - i - 1, by omega⟩
  rw [hf]
  show (if i < text.length then
          if p (text.getD i ' ') = true then scanFwdAux p text f (i + 1) else i
        else i) = scanFwdAux p text (text.length - (i + 1)) (i + 1)
  rw [if_pos hi, hp, if_pos rfl]
  exact scanFwdAux_congr p text f (text.length - (i + 1)) (i + 1) (by omega) (by omega)

/-- A downward scan stops immediately where the predicate fails. -/
theorem scanBack_stop_imm {p : Char → Bool} {text : List Char} {i : Nat}
    (hp : p (text.getD i ' ') = false) : scanBack p text i = some i := by
  cases i with
  | zero => unfold scanBack; rw [hp]; simp
  | succ i => unfold scanBack; rw [hp]; simp

/-- A downward scan over a block on which the predicate holds, delimited
on the left at `m`, stops just left of the block (or falls off at 0). -/
theorem scanBack_run (p : Char → Bool) (text : List Char) (m : Nat) :
    ∀ i, m ≤ i → (∀ k, m ≤ k → k ≤ i → p (text.getD k ' ') = true) →
    (m = 0 ∨ p (text.getD (m - 1) ' ') = false) →
    scanBack p text i = if m = 0 then none else some (m - 1) := by
  intro i
  induction i with
  | zero =>
    intro hm hall hstop
    have hm0 : m = 0 := by omega
    have hcond : p (text.getD 0 ' ') = true := hall 0 (by omega) (Nat.le_refl 0)
    rw [if_pos hm0]
    show (if p (text.getD 0 ' ') = true then none else some 0) = none
    rw [hcond, if_pos rfl]
  | succ i ih =>
    intro hm hall hstop
    have hcond : p (text.getD (i + 1) ' ') = true := hall (i + 1) hm (Nat.le_refl _)
    have hstep : scanBack p text (i + 1) = scanBack p text i := by
      show (if p (text.getD (i + 1) ' ') = true then scanBack p text i
            else some (i + 1)) = scanBack p text i
      rw [hcond, if_pos rfl]
    rw [hstep]
    by_cases hmi : m ≤ i
    · exact ih hmi (fun k hk1 hk2 => hall k hk1 (by omega)) hstop
    · have hm1 : m = i + 1 := by omega
      rcases hstop with h0 | hfalse
      · omega
      · rw [if_neg (by omega)]
        have hfi : p (text.getD i ' ') = false := by
          rw [show i = m - 1 by omega]
          exact hfalse
        rw [scanBack_stop_imm hfi]
        congr 1
        omega

/-- C8: the alphanumeric-policy round-trip: from the start of a run of
alphanumeric characters (left-delimited by a non-alphanumeric character or
the start of the text), moving right one word and then left one word
returns to the starting position. -/
theorem claim_C8 : ∀ (T : List Char) (p : Nat), p < T.length →
    (T.getD p ' ').isAlphanum = true →
    (p = 0 ∨ (T.getD (p - 1) ' ').isAlphanum = false) →
    move_word_left_alphanum T (move_word_right_alphanum T p) = p := by
  intro T p hp ha hb
  have h1 : scanFwd (fun c => !c.isAlphanum) T p = p :=
    scanFwd_id _ T hp (by simpa using ha)
  have hq1 : p + 1 ≤ scanFwd (fun c => c.isAlphanum) T p := by
    rw [scanFwd_suc _ T hp (by simpa using ha)]
    exact scanFwd_ge _ T (p + 1)
  have hq2 : scanFwd (fun c => c.isAlphanum) T p ≤ T.length :=
    scanFwd_le_len _ T (Nat.le_of_lt hp)
  have hq3 : ∀ k, p ≤ k → k < scanFwd (fun c => c.isAlphanum) T p →
      (T.getD k ' ').isAlphanum = true := by
    intro k hk1 hk2
    simpa using scanFwd_all (fun c => c.isAlphanum) T hk1 hk2
  have hmwr : move_word_right_alphanum T p = scanFwd (fun c => c.isAlphanum) T p := by
    unfold move_word_right_alphanum
    rw [if_neg (by omega), h1]
  rw [hmwr]
  unfold move_word_left_alphanum
  rw [if_neg (by omega)]
  have hq4 : (T.getD (scanFwd (fun c => c.isAlphanum) T p - 1) ' ').isAlphanum = true :=
    hq3 _ (by omega) (by omega)
  rw [scanBack_stop_imm (p := fun c => !c.isAlphanum) (by simpa using hq4)]
  show (match scanBack (fun c => c.isAlphanum) T
          (scanFwd (fun c => c.isAlphanum) T p - 1) with
        | none => 0
        | some j => j + 1) = p
  rw [scanBack_run (fun c => c.isAlphanum) T p _ (by omega)
    (fun k hk1 hk2 => hq3 k hk1 (by omega))
    (by rcases hb with h0 | hf
        · exact Or.inl h0
        · exact Or.inr (by simpa using hf))]
  by_cases hp0 : p = 0
  · rw [if_pos hp0]
    show (0 : Nat) = p
    omega
  · rw [if_neg hp0]
    show (p - 1) + 1 = p
    omega

/-- C8 witness: the round-trip at `"ab cd"`, position 3 (the start of the
run `"cd"`). -/
theorem wit_C8 :
    move_word_left_alphanum "ab cd".toList (move_word_right_alphanum "ab cd".toList 3) = 3 :=
  claim_C8 "ab cd".toList 3 (by decide) (by decide) (by decide)

/-- The fuel of the occurrence scan is irrelevant once it covers the
haystack length. -/
theorem scanCountAux_congr (needle : List Char) :
    ∀ f g hay, hay.length ≤ f → hay.length ≤ g →
      scanCountAux needle f hay = scanCountAux needle g hay := by
  intro f
  induction f with
  | zero =>
    intro g hay h1 h2
    have hh : hay = [] := List.eq_nil_of_length_eq_zero (by omega)
    subst hh
    cases g <;> rfl
  | succ f ih =>
    intro g hay h1 h2
    cases hay with
    | nil => cases g <;> rfl
    | cons c rest =>
      cases g with
      | zero => simp at h2
      | succ g =>
        have hr1 : rest.length ≤ f := by
          simp only [List.length_cons] at h1; omega
        have hr2 : rest.length ≤ g := by
          simp only [List.length_cons] at h2; omega
        show (if needle ≠ [] ∧ (c :: rest).take needle.length = needle
              then 1 + scanCountAux needle f (rest.drop (needle.length - 1))
              else scanCountAux needle f rest) =
             (if needle ≠ [] ∧ (c :: rest).take needle.length = needle
              then 1 + scanCountAux needle g (rest.drop (needle.length - 1))
              else scanCountAux needle g rest)
        split
        · have hd : (rest.drop (needle.length - 1)).length ≤ rest.length := by
            rw [List.length_drop]; omega
          rw [ih g _ (by omega) (by omega)]
        · rw [ih g rest hr1 hr2]

/-- Scan equation: a match at the head is counted and skipped. -/
theorem scanCount_cons_pos {needle : List Char} (c : Char) (rest : List Char)
    (h : needle ≠ [] ∧ (c :: rest).take needle.length = needle) :
    scanCount needle (c :: rest) =
      1 + scanCount needle (rest.drop (needle.length - 1)) := by
  show (if needle ≠ [] ∧ (c :: rest).take needle.length = needle
        then 1 + scanCountAux needle rest.length (rest.drop (needle.length - 1))
        else scanCountAux needle rest.length rest) = _
  rw [if_pos h]
  congr 1
  exact scanCountAux_congr needle rest.length _ _
    (by rw [List.length_drop]; omega) (Nat.le_refl _)

/-- Scan equation: no match at the head advances one character. -/
theorem scanCount_cons_neg {needle : List Char} (c : Char) (rest : List Char)
    (h : ¬(needle ≠ [] ∧ (c :: rest).take needle.length = needle)) :
    scanCount needle (c :: rest) = scanCount needle rest := by
  show (if needle ≠ [] ∧ (c :: rest).take needle.length = needle
        then 1 + scanCountAux needle rest.length (rest.drop (needle.length - 1))
        else scanCountAux needle rest.length rest) = _
  rw [if_neg h]
  rfl

/-- The first line computed by `splitLinesAux` starts the input. -/
theorem splitLinesAux_fst_pref : ∀ s : List Char,
    ∃ t, s = (splitLinesAux s).1 ++ t := by
  intro s
  induction s with
  | nil => exact ⟨[], rfl⟩
  | cons c rest ih =>
    obtain ⟨t, ht⟩ := ih
    by_cases hc : c = '\n'
    · refine ⟨c :: rest, ?_⟩
      simp [splitLinesAux, hc]
    · refine ⟨t, ?_⟩
      simp only [splitLinesAux, if_neg hc]
      exact congrArg (c :: ·) ht

/-- `split('\n')` past a newline-free block keeps the block inside the
first line. -/
theorem splitLinesAux_append_noNl : ∀ (pre : List Char), '\n' ∉ pre →
    ∀ s, splitLinesAux (pre ++ s) =
      (pre ++ (splitLinesAux s).1, (splitLinesAux s).2) := by
  intro pre
  induction pre with
  | nil => intro _ s; simp
  | cons c pre ih =>
    intro hnl s
    have hc : c ≠ '\n' := fun h => hnl (by rw [h]; exact List.mem_cons_self _ _)
    have hpre : '\n' ∉ pre := fun h => hnl (List.mem_cons_of_mem c h)
    show splitLinesAux (c :: (pre ++ s)) = _
    simp only [splitLinesAux, ih hpre s, if_neg hc, List.cons_append]

/-- Scanning a haystack that starts with the needle counts one match at
the head and continues past it. -/
theorem scanCount_self_append (needle : List Char) (hne : needle ≠ [])
    (l : List Char) : scanCount needle (needle ++ l) = 1 + scanCount needle l := by
  obtain ⟨c, rest, rfl⟩ := List.exists_cons_of_ne_nil hne
  rw [show (c :: rest) ++ l = c :: (rest ++ l) from rfl]
  rw [scanCount_cons_pos c (rest ++ l)
    ⟨hne, by rw [← List.cons_append]; exact List.take_left _ _⟩]
  congr 1
  rw [show (c :: rest).length - 1 = rest.length by simp]
  rw [List.drop_left]

/-- Non-overlapping occurrence counting of a newline-free needle
distributes over the lines of the haystack (fuelled induction). -/
theorem scanCount_splitLinesAux (needle : List Char) (hne : needle ≠ [])
    (hnl : '\n' ∉ needle) :
    ∀ n hay, hay.length ≤ n →
      scanCount needle hay =
        scanCount needle (splitLinesAux hay).1 +
          ((splitLinesAux hay).2.map (scanCount needle)).sum := by
  intro n
  induction n with
  | zero =>
    intro hay h
    have hh : hay = [] := List.eq_nil_of_length_eq_zero (by omega)
    subst hh
    rfl
  | succ n ih =>
    intro hay h
    cases hay with
    | nil => rfl
    | cons c rest =>
      have hlen : rest.length ≤ n := by
        simp only [List.length_cons] at h; omega
      by_cases hc : c = '\n'
      · subst hc
        have hcond : ¬(needle ≠ [] ∧ ('\n' :: rest).take needle.length = needle) := by
          rintro ⟨h1, h2⟩
          obtain ⟨n0, ntl, rfl⟩ := List.exists_cons_of_ne_nil h1
          rw [List.length_cons, List.take_succ_cons] at h2
          injection h2 with h2a h2b
          exact hnl (by rw [← h2a]; exact List.mem_cons_self _ _)
        rw [scanCount_cons_neg _ _ hcond]
        have hsplit : splitLinesAux ('\n' :: rest) =
            ([], (splitLinesAux rest).1 :: (splitLinesAux rest).2) := by
          simp [splitLinesAux]
        rw [hsplit, ih rest hlen]
        simp only [List.map_cons, List.sum_cons]
        rw [show scanCount needle [] = 0 from rfl]
        omega
      · by_cases hpre : (c :: rest).take needle.length = needle
        · obtain ⟨u, hu⟩ : ∃ u, c :: rest = needle ++ u :=
            ⟨(c :: rest).drop needle.length, by
              conv_lhs => rw [← List.take_append_drop needle.length (c :: rest)]
              rw [hpre]⟩
          have hn1 : 1 ≤ needle.length := by
            cases needle
            · exact absurd rfl hne
            · simp
          have hulen : u.length ≤ n := by
            have hl : (c :: rest).length = needle.length + u.length := by
              rw [hu, List.length_append]
            simp only [List.length_cons] at hl h
            omega
          rw [hu, scanCount_self_append needle hne u,
            splitLinesAux_append_noNl needle hnl u,
            scanCount_self_append needle hne (splitLinesAux u).1,
            ih u hulen]
          dsimp only
          omega
        · rw [scanCount_cons_neg c rest (by rintro ⟨h1, h2⟩; exact hpre h2)]
          have hsplit : splitLinesAux (c :: rest) =
              (c :: (splitLinesAux rest).1, (splitLinesAux rest).2) := by
            simp [splitLinesAux, hc]
          rw [hsplit]
          have hnp : ¬((c :: (splitLinesAux rest).1).take needle.length = needle) := by
            intro htk
            obtain ⟨t, htp⟩ := splitLinesAux_fst_pref rest
            apply hpre
            have hlen2 : needle.length ≤ (c :: (splitLinesAux rest).1).length := by
              have h3 := congrArg List.length htk
              rw [List.length_take] at h3
              rcases Nat.le_total needle.length (c :: (splitLinesAux rest).1).length with
                h4 | h4
              · exact h4
              · rw [Nat.min_eq_right h4] at h3; omega
            calc (c :: rest).take needle.length
                = ((c :: (splitLinesAux rest).1) ++ t).take needle.length := by
                  rw [List.cons_append, ← htp]
              _ = (c :: (splitLinesAux rest).1).take needle.length :=
                  List.take_append_of_le_length hlen2
              _ = needle := htk
          rw [scanCount_cons_neg c _ (by rintro ⟨h1, h2⟩; exact hnp h2)]
          exact ih rest hlen

/-- Non-overlapping occurrence counting of a newline-free needle equals
the sum of the per-line counts. -/
theorem scanCount_splitLines (needle : List Char) (hne : needle ≠ [])
    (hnl : '\n' ∉ needle) (hay : List Char) :
    scanCount needle hay = ((splitLines hay).map (scanCount needle)).sum := by
  rw [scanCount_splitLinesAux needle hne hnl hay.length hay (Nat.le_refl _)]
  simp [splitLines, List.map_cons, List.sum_cons]

/-- ASCII lowercasing maps no character to a newline except the newline
itself. -/
theorem pyLower_eq_nl_iff (c : Char) : pyLower c = '\n' ↔ c = '\n' := by
  constructor
  · intro h
    unfold pyLower at h
    split at h
    · rename_i hr
      exfalso
      have key : ∀ k : Fin 26, Char.ofNat (97 + k.val) ≠ '\n' := by decide
      have hk := key ⟨c.toNat - 65, by omega⟩
      rw [show 97 + (c.toNat - 65) = c.toNat + 32 by omega] at hk
      exact hk h
    · exact h
  · intro h
    rw [h]
    decide

/-- Lowercasing commutes with splitting on newlines. -/
theorem splitLinesAux_map_pyLower : ∀ s : List Char,
    splitLinesAux (s.map pyLower) =
      ((splitLinesAux s).1.map pyLower, (splitLinesAux s).2.map (List.map pyLower)) := by
  intro s
  induction s with
  | nil => rfl
  | cons c rest ih =>
    by_cases hc : c = '\n'
    · subst hc
      simp only [List.map_cons]
      rw [show pyLower '\n' = '\n' from by decide]
      simp [splitLinesAux, ih]
    · have hcl : pyLower c ≠ '\n' := fun h => hc ((pyLower_eq_nl_iff c).mp h)
      simp only [List.map_cons]
      simp [splitLinesAux, hcl, hc, ih]

/-- Length of the per-line match list: one entry per match per line. -/
theorem length_flatMap_replicate (g : List Char → Nat) :
    ∀ (ls : List (List Char)) (n : Nat),
      ((List.enumFrom n ls).flatMap fun pr => List.replicate (g pr.2) pr.1).length =
        (ls.map g).sum := by
  intro ls
  induction ls with
  | nil => intro n; rfl
  | cons l ls ih =>
    intro n
    rw [List.enumFrom_cons, List.flatMap_cons, List.length_append,
      List.length_replicate, ih (n + 1), List.map_cons, List.sum_cons]

/-- Every line number emitted at or after position `n` is at least `n`. -/
theorem mem_flatMap_replicate_ge (g : List Char → Nat) :
    ∀ (ls : List (List Char)) (n x : Nat),
      x ∈ ((List.enumFrom n ls).flatMap fun pr => List.replicate (g pr.2) pr.1) →
      n ≤ x := by
  intro ls
  induction ls with
  | nil => intro n x h; simp at h
  | cons l ls ih =>
    intro n x h
    rw [List.enumFrom_cons, List.flatMap_cons, List.mem_append] at h
    rcases h with h | h
    · rw [List.eq_of_mem_replicate h]
    · exact Nat.le_trans (Nat.le_succ n) (ih (n + 1) x h)

/-- The emitted line numbers are non-decreasing. -/
theorem pairwise_flatMap_replicate (g : List Char → Nat) :
    ∀ (ls : List (List Char)) (n : Nat),
      List.Pairwise (· ≤ ·)
        ((List.enumFrom n ls).flatMap fun pr => List.replicate (g pr.2) pr.1) := by
  intro ls
  induction ls with
  | nil => intro n; exact List.Pairwise.nil
  | cons l ls ih =>
    intro n
    rw [List.enumFrom_cons, List.flatMap_cons, List.pairwise_append]
    refine ⟨List.pairwise_replicate.mpr (Or.inr (Nat.le_refl n)), ih (n + 1), ?_⟩
    intro a ha b hb
    rw [List.eq_of_mem_replicate ha]
    exact Nat.le_trans (Nat.le_succ n) (mem_flatMap_replicate_ge g ls (n + 1) b hb)

/-- C10: for every corpus and every non-empty literal search text without
a newline, the per-line scanner and the whole-text counter agree on the
number of matches, and the emitted line numbers are non-decreasing. -/
theorem claim_C10 : ∀ (t s : List Char), s ≠ [] → '\n' ∉ s →
    (find_matches_with_positions t s false).length = count_matches t s false ∧
    List.Pairwise (· ≤ ·) (find_matches_with_positions t s false) := by
  intro t s hs hnl
  have hfind : find_matches_with_positions t s false =
      (List.enumFrom 1 (splitLines t)).flatMap
        (fun pr => List.replicate (patCount (RePattern.literal s) pr.2) pr.1) := by
    unfold find_matches_with_positions
    rw [if_neg hs, re_compile_literal]
  constructor
  · rw [hfind,
      length_flatMap_replicate (fun line => patCount (RePattern.literal s) line)
        (splitLines t) 1]
    unfold count_matches
    rw [if_neg hs, re_compile_literal]
    show ((splitLines t).map fun line =>
        scanCount (s.map pyLower) (line.map pyLower)).sum =
      scanCount (s.map pyLower) (t.map pyLower)
    have hn1 : s.map pyLower ≠ [] := by
      cases s
      · exact absurd rfl hs
      · simp
    have hn2 : '\n' ∉ s.map pyLower := by
      intro hmem
      obtain ⟨c, hcmem, hceq⟩ := List.mem_map.mp hmem
      have hcnl : c = '\n' := (pyLower_eq_nl_iff c).mp hceq
      rw [hcnl] at hcmem
      exact hnl hcmem
    rw [scanCount_splitLines _ hn1 hn2 (t.map pyLower)]
    have hsl : splitLines (t.map pyLower) = (splitLines t).map (List.map pyLower) := by
      unfold splitLines
      rw [splitLinesAux_map_pyLower t]
      simp [List.map_cons]
    rw [hsl, List.map_map]
    rfl
  · rw [hfind]
    exact pairwise_flatMap_replicate _ (splitLines t) 1

/-- C10 witness: corpus `"ab\na"`, search text `"a"`: two matches, one per
line, line numbers `[1, 2]`. -/
theorem wit_C10 :
    (find_matches_with_positions "ab\na".toList "a".toList false).length =
      count_matches "ab\na".toList "a".toList false ∧
    List.Pairwise (· ≤ ·)
      (find_matches_with_positions "ab\na".toList "a".toList false) :=
  claim_C10 "ab\na".toList "a".toList (by decide) (by decide)
